import Mathlib

/-!
# Pebble SDK Dictionary codec: formal model and verification

This file embeds the key/value Dictionary serialization subsystem of the
Pebble SDK (`dict_*` functions, `Tuple`/`Tuplet`, `DictionaryIterator`,
declared in `pebble.h`) as executable Lean definitions and proves the
specified properties about them.

The repository ships only the public C header: the `dict_*` functions are
declared but their bodies are not part of the source. The models below are
therefore built from the specification's description of the wire format and
of each operation's contract (their doc comments say `Modelled from the
spec:`), except for `TupletCString`, whose macro body is present in the
header and is transcribed directly.

Bytes are modelled as natural numbers (< 256 where it matters), buffers as
`List Nat`, machine integers as `Nat`/`Int` with explicit reductions modulo
`2 ^ w`. All definitions are executable, so every concrete scenario below
can be checked by evaluation.
-/

namespace PebbleDict

/-! ## Little-endian byte encoding -/

/-- Little-endian encoding of a natural number into `w` bytes
(the value is taken modulo `2^(8*w)`). -/
def toLE : Nat → Nat → List Nat
  | 0, _ => []
  | w + 1, v => v % 256 :: toLE w (v / 256)

/-- Little-endian decoding of a byte list into a natural number. -/
def fromLE : List Nat → Nat
  | [] => 0
  | b :: bs => b + 256 * fromLE bs

/-! ## Data model: TupleType and Tuple -/

/-- Wire code of the byte-array tuple type (`pebble.h`, `TupleType`). -/
def TUPLE_BYTE_ARRAY : Nat := 0

/-- Wire code of the zero-terminated C-string tuple type. -/
def TUPLE_CSTRING : Nat := 1

/-- Wire code of the unsigned-integer tuple type. -/
def TUPLE_UINT : Nat := 2

/-- Wire code of the signed-integer tuple type. -/
def TUPLE_INT : Nat := 3

/-- One key/value record of a Dictionary: key (u32), type (u8 code, kept as
the raw byte, as the C `Tuple` stores it), and the payload bytes (whose
length is the u16 `length` field). Mirrors `Tuple` of `pebble.h`. -/
structure Tuple where
  key : Nat
  type : Nat
  value : List Nat
  deriving DecidableEq, Repr

/-- Well-formedness of a tuple at the C type level: the key fits u32, the
type code fits u8, the value length fits the u16 length field. -/
def Tuple.wf (t : Tuple) : Prop :=
  t.key < 2 ^ 32 ∧ t.type < 256 ∧ t.value.length < 2 ^ 16

instance : DecidablePred Tuple.wf := by
  intro t; simp only [Tuple.wf]; infer_instance

/-- Serialized form of one entry, per the wire format:
`key:u32(LE) type:u8 length:u16(LE) value:u8[length]`. -/
def tupleBytes (t : Tuple) : List Nat :=
  toLE 4 t.key ++ [t.type] ++ toLE 2 t.value.length ++ t.value

/-- Concatenated serialization of a list of entries. -/
def entriesBytes (ts : List Tuple) : List Nat :=
  (ts.map tupleBytes).flatten

/-- Total serialized size of a list of entries (7-byte headers plus value
payloads, without the 1-byte dictionary header). -/
def entriesSize (ts : List Tuple) : Nat :=
  (ts.map (fun t => 7 + t.value.length)).sum

/-- Modelled from the spec: `dict_calc_buffer_size` (declared in `pebble.h`,
body not in the source). The C function is variadic: it receives
`tuple_count` and then that many value lengths; it accumulates the 1-byte
dictionary header plus, per tuple, the 7-byte tuple header and the value
length. The variadic argument list is modelled as an explicit `List Nat`,
of which the first `tuple_count` elements are consumed. -/
def dict_calc_buffer_size (tuple_count : Nat) (lens : List Nat) : Nat :=
  go tuple_count lens 1
where
  go : Nat → List Nat → Nat → Nat
    | 0, _, acc => acc
    | _ + 1, [], acc => acc
    | n + 1, l :: ls, acc => go n ls (acc + 7 + l)

/-! ## Spec-side wire grammar

These two definitions follow the specification's wire-format grammar
verbatim (`Dictionary := count:u8 Entry*`,
`Entry := key:u32(LE) type:u8 length:u16(LE) value:u8[length]`), written
out byte by byte. They exist only to be compared against the writer model
for the wire-format-exactness claim. -/

/-- The spec's `Entry` production: the four key bytes little-endian, the
type byte, the two length bytes little-endian, then the value bytes. -/
def specEncodeEntry (t : Tuple) : List Nat :=
  [t.key % 256, t.key / 256 % 256, t.key / 65536 % 256, t.key / 16777216 % 256,
   t.type,
   t.value.length % 256, t.value.length / 256 % 256] ++ t.value

/-- The spec's `Dictionary` production: the entry count as the single
header byte, followed by the concatenated `Entry` productions. (A count
above 255 is not representable in the `count:u8` field.) -/
def specEncodeDict (ts : List Tuple) : List Nat :=
  ts.length :: (ts.map specEncodeEntry).flatten

/-! ## Writer (write-mode iterator) -/

/-- Return values for dictionary write/conversion functions
(`DictionaryResult` of `pebble.h`). -/
inductive DictionaryResult where
  | DICT_OK
  | DICT_NOT_ENOUGH_STORAGE
  | DICT_INVALID_ARGS
  | DICT_INTERNAL_INCONSISTENCY
  | DICT_MALLOC_FAILED
  deriving DecidableEq, Repr

/-- Modelled from the spec: the write-mode `DictionaryIterator` state.
The C iterator holds a pointer into a caller-owned buffer; the model keeps
the declared storage `size` from `dict_write_begin`, the number of tuples
written so far (the dictionary header's count field, a u8 on the wire), and
the serialized entry bytes written after the 1-byte header. -/
structure DictionaryIterator where
  size : Nat
  count : Nat
  payload : List Nat
  deriving DecidableEq, Repr

/-- Modelled from the spec: `dict_write_begin` (declared in `pebble.h`, body
not in the source). Resets the iterator to an empty dictionary over storage
of the given size; fails with `DICT_NOT_ENOUGH_STORAGE` when the storage
cannot hold even the 1-byte header. (The C `DICT_INVALID_ARGS` case for a
NULL buffer pointer has no counterpart in the model, where the buffer always
exists.) -/
def dict_write_begin (size : Nat) : Except DictionaryResult DictionaryIterator :=
  if size < 1 then .error .DICT_NOT_ENOUGH_STORAGE else .ok ⟨size, 0, []⟩

/-- Modelled from the spec: the common append step shared by the
`dict_write_*` functions. The entry (7-byte header plus payload) is appended
only when the cumulative written size (1-byte dictionary header included)
stays within the declared storage size; otherwise the write fails with
`DICT_NOT_ENOUGH_STORAGE` and the iterator is unchanged. -/
def appendTuple (it : DictionaryIterator) (t : Tuple) :
    Except DictionaryResult DictionaryIterator :=
  if 1 + it.payload.length + (7 + t.value.length) ≤ it.size then
    .ok ⟨it.size, it.count + 1, it.payload ++ tupleBytes t⟩
  else
    .error .DICT_NOT_ENOUGH_STORAGE

/-- Modelled from the spec: `dict_write_data` appends a byte-array entry. -/
def dict_write_data (it : DictionaryIterator) (key : Nat) (data : List Nat) :
    Except DictionaryResult DictionaryIterator :=
  appendTuple it ⟨key, TUPLE_BYTE_ARRAY, data⟩

/-- Modelled from the spec: `dict_write_cstring` appends a C-string entry;
the stored length includes the terminating zero, which is serialized after
the string's characters. -/
def dict_write_cstring (it : DictionaryIterator) (key : Nat) (cs : List Nat) :
    Except DictionaryResult DictionaryIterator :=
  appendTuple it ⟨key, TUPLE_CSTRING, cs ++ [0]⟩

/-- Modelled from the spec: `dict_write_int` appends an integer entry of
width 1, 2 or 4 bytes, serialized little-endian (two's complement for
signed values); any other width fails with `DICT_INVALID_ARGS`. -/
def dict_write_int (it : DictionaryIterator) (key : Nat) (v : Int)
    (width : Nat) (is_signed : Bool) :
    Except DictionaryResult DictionaryIterator :=
  if width = 1 ∨ width = 2 ∨ width = 4 then
    appendTuple it
      ⟨key, if is_signed then TUPLE_INT else TUPLE_UINT,
        toLE width (v % (2 ^ (8 * width) : Nat)).toNat⟩
  else
    .error .DICT_INVALID_ARGS

/-- Modelled from the spec: `dict_write_end` finalizes the dictionary. The
resulting buffer content is the count header byte (a u8, hence the count
modulo 256) followed by the serialized entries. -/
def dict_write_end (it : DictionaryIterator) : List Nat :=
  toLE 1 it.count ++ it.payload

/-- Modelled from the spec: `dict_size`, the number of bytes written to the
dictionary (1-byte header plus entries). -/
def dict_size (it : DictionaryIterator) : Nat :=
  1 + it.payload.length

/-! ## Write operations, abstractly -/

/-- One call to a `dict_write_*` function, with its arguments. -/
inductive WriteOp where
  | data (key : Nat) (bytes : List Nat)
  | cstring (key : Nat) (chars : List Nat)
  | int (key : Nat) (v : Int) (width : Nat) (is_signed : Bool)
  deriving DecidableEq, Repr

/-- The key argument of a write call. -/
def WriteOp.key : WriteOp → Nat
  | .data k _ => k
  | .cstring k _ => k
  | .int k _ _ _ => k

/-- Validity of a write call's arguments at the C type level: keys are u32,
serialized lengths fit the u16 length field, data bytes are bytes, C-string
characters are NUL-free bytes, integer widths are 1, 2 or 4. -/
def WriteOp.valid : WriteOp → Prop
  | .data k bs => k < 2 ^ 32 ∧ bs.length < 2 ^ 16 ∧ ∀ b ∈ bs, b < 256
  | .cstring k cs => k < 2 ^ 32 ∧ cs.length + 1 < 2 ^ 16 ∧ (∀ b ∈ cs, b < 256) ∧ 0 ∉ cs
  | .int k _ w _ => k < 2 ^ 32 ∧ (w = 1 ∨ w = 2 ∨ w = 4)

instance : DecidablePred WriteOp.valid := by
  intro op; cases op <;> simp only [WriteOp.valid] <;> infer_instance

/-- The tuple that a valid write call serializes, per the spec of each
`dict_write_*` function. -/
def WriteOp.tuple : WriteOp → Tuple
  | .data k bs => ⟨k, TUPLE_BYTE_ARRAY, bs⟩
  | .cstring k cs => ⟨k, TUPLE_CSTRING, cs ++ [0]⟩
  | .int k v w s =>
      ⟨k, if s then TUPLE_INT else TUPLE_UINT,
        toLE w (v % (2 ^ (8 * w) : Nat)).toNat⟩

/-- Dispatches one abstract write call to the corresponding model
function. -/
def applyWriteOp (it : DictionaryIterator) : WriteOp → Except DictionaryResult DictionaryIterator
  | .data k bs => dict_write_data it k bs
  | .cstring k cs => dict_write_cstring it k cs
  | .int k v w s => dict_write_int it k v w s

/-- Performs the write calls of `ops` in order, stopping at the first
failure. -/
def writeList (it : DictionaryIterator) : List WriteOp → Except DictionaryResult DictionaryIterator
  | [] => .ok it
  | op :: ops =>
    match applyWriteOp it op with
    | .ok it' => writeList it' ops
    | .error e => .error e

/-- A whole write session: `dict_write_begin` over storage of size `size`,
followed by the calls of `ops` in order. -/
def writeAll (size : Nat) (ops : List WriteOp) :
    Except DictionaryResult DictionaryIterator :=
  match dict_write_begin size with
  | .ok it => writeList it ops
  | .error e => .error e

/-! ## Reader (read-mode iterator) -/

/-- Modelled from the spec: the read-mode iterator state, a cursor over a
caller-owned buffer. `off` is the byte offset of the next entry to read,
`remaining` the number of entries still to be delivered according to the
dictionary's count header. -/
structure ReadIterator where
  buf : List Nat
  size : Nat
  off : Nat
  remaining : Nat
  deriving DecidableEq, Repr

/-- Modelled from the spec: parsing of one entry at byte offset `off`.
Every access is bounds-checked against the declared buffer `size` before
any byte is interpreted: the 7-byte entry header must lie within `size`,
and then the header's declared value length must not run past `size`;
otherwise parsing fails (the NULL sentinel). On success it returns the
entry and the offset just past it. -/
def readTupleAt (buf : List Nat) (size off : Nat) : Option (Tuple × Nat) :=
  if off + 7 ≤ size then
    if off + 7 + fromLE (((buf.drop off).drop 5).take 2) ≤ size then
      some (⟨fromLE ((buf.drop off).take 4),
             fromLE (((buf.drop off).drop 4).take 1),
             ((buf.drop off).drop 7).take (fromLE (((buf.drop off).drop 5).take 2))⟩,
            off + 7 + fromLE (((buf.drop off).drop 5).take 2))
    else none
  else none

/-- Modelled from the spec: `dict_read_begin_from_buffer`. Reads the count
header byte and returns the first entry together with the initialized
iterator, or `none` (the NULL sentinel) when the dictionary is empty or the
first entry does not parse within the buffer bounds. -/
def dict_read_begin_from_buffer (buf : List Nat) (size : Nat) :
    Option (ReadIterator × Tuple) :=
  if 1 ≤ size then
    if fromLE (buf.take 1) = 0 then none
    else
      match readTupleAt buf size 1 with
      | none => none
      | some (t, off) => some (⟨buf, size, off, fromLE (buf.take 1) - 1⟩, t)
  else none

/-- Modelled from the spec: `dict_read_next`. Returns the next entry and
advances the cursor, or `none` once the declared count is exhausted or the
next entry's declared length would run past the buffer end. -/
def dict_read_next (st : ReadIterator) : Option (ReadIterator × Tuple) :=
  if st.remaining = 0 then none
  else
    match readTupleAt st.buf st.size st.off with
    | none => none
    | some (t, off) => some (⟨st.buf, st.size, off, st.remaining - 1⟩, t)

/-- Modelled from the spec: `dict_read_first`, a reset to the same state a
fresh `dict_read_begin_from_buffer` would produce. -/
def dict_read_first (st : ReadIterator) : Option (ReadIterator × Tuple) :=
  dict_read_begin_from_buffer st.buf st.size

/-- Iterates `dict_read_next` at most `fuel` times, collecting the entries
until the iterator reports the end (or a parse failure). -/
def readAllAux : Nat → ReadIterator → List Tuple
  | 0, _ => []
  | fuel + 1, st =>
    match dict_read_next st with
    | none => []
    | some (st', t) => t :: readAllAux fuel st'

/-- The full read traversal of a buffer: `dict_read_begin_from_buffer`
followed by `dict_read_next` until the NULL sentinel. (The count header
bounds the number of iterations.) -/
def readAll (buf : List Nat) (size : Nat) : List Tuple :=
  match dict_read_begin_from_buffer buf size with
  | none => []
  | some (st, t) => t :: readAllAux st.remaining st

/-- A full write-then-read session: serialize `ops` into a buffer of the
given size, finalize, then read every entry back; `none` when some write
failed. -/
def roundTrip (size : Nat) (ops : List WriteOp) : Option (List Tuple) :=
  match writeAll size ops with
  | .ok it => some (readAll (dict_write_end it) (dict_write_end it).length)
  | .error _ => none

/-- The finalized buffer of a write session, when every write succeeded. -/
def finalBuffer (size : Nat) (ops : List WriteOp) : Option (List Nat) :=
  match writeAll size ops with
  | .ok it => some (dict_write_end it)
  | .error _ => none

/-! ## find -/

/-- Modelled from the spec: `dict_find`, the linear scan for the first
entry (in insertion order) whose key matches; `none` models the NULL
result. The dictionary is given by its entry sequence, as delivered by the
read iterator. -/
def dict_find : List Tuple → Nat → Option Tuple
  | [], _ => none
  | t :: ts, k => if t.key = k then some t else dict_find ts k

/-! ## Merge -/

/-- Whether some entry with the given key is present. -/
def hasKey (ts : List Tuple) (k : Nat) : Bool :=
  ts.any (fun t => t.key == k)

/-- The last entry (in iteration order) with the given key, if any; the
spec makes the last source occurrence of a key win during a merge. -/
def lastWithKey : List Tuple → Nat → Option Tuple
  | [], _ => none
  | t :: ts, k =>
    match lastWithKey ts k with
    | some u => some u
    | none => if t.key = k then some t else none

/-- Updates one destination entry from the merge source: when the source
holds the key, the entry's type and value are overwritten in place (last
source occurrence winning) while the key and its position are kept. -/
def updateEntry (src : List Tuple) (d : Tuple) : Tuple :=
  match lastWithKey src d.key with
  | some s => ⟨d.key, s.type, s.value⟩
  | none => d

/-- Keeps only the first occurrence of each key, preserving order
(`seen` accumulates the keys already emitted). -/
def dedupKeysGo (seen : List Nat) : List Tuple → List Tuple
  | [] => []
  | t :: ts =>
    if t.key ∈ seen then dedupKeysGo seen ts
    else t :: dedupKeysGo (t.key :: seen) ts

/-- Keeps only the first occurrence of each key, preserving order. -/
def dedupByKey (ts : List Tuple) : List Tuple :=
  dedupKeysGo [] ts

/-- Modelled from the spec: the entry sequence of the merged destination.
Existing destination entries are kept in place, their values overwritten
when the source holds the key (last source occurrence winning); unless the
merge is restricted to existing keys, source entries with fresh keys are
then appended, one per key at its first source occurrence, carrying the
last occurrence's value. -/
def mergeEntries (dest src : List Tuple) (update_existing_keys_only : Bool) :
    List Tuple :=
  dest.map (updateEntry src) ++
    (if update_existing_keys_only then []
     else ((dedupByKey src).filter (fun s => !hasKey dest s.key)).map (updateEntry src))

/-- One invocation of the `DictionaryKeyUpdatedCallback`: the key, the new
tuple (as written into the destination), and a copy of the old tuple —
`none` models the sentinel passed when the key was not previously
present. -/
structure KeyUpdate where
  key : Nat
  new_tuple : Tuple
  old_tuple : Option Tuple
  deriving DecidableEq, Repr

/-- Modelled from the spec: the callback sequence fired by `dict_merge`,
one invocation per source entry occurrence, in source iteration order; when
the merge is restricted to existing keys, dropped source entries fire no
callback. The old tuple is the first match in the original destination. -/
def mergeCallbacks (dest src : List Tuple) (update_existing_keys_only : Bool) :
    List KeyUpdate :=
  if update_existing_keys_only then
    (src.filter (fun s => hasKey dest s.key)).map
      (fun s => ⟨s.key, s, dict_find dest s.key⟩)
  else
    src.map (fun s => ⟨s.key, s, dict_find dest s.key⟩)

/-- Modelled from the spec: `dict_merge`. The merged result's total
serialized size (1-byte header plus entries) is checked against the
destination's declared maximum before anything is committed; on success it
returns the merged entries, the final dictionary size, and the callback
sequence; otherwise it fails with `DICT_NOT_ENOUGH_STORAGE`. -/
def dict_merge (dest : List Tuple) (dest_max_size : Nat) (src : List Tuple)
    (update_existing_keys_only : Bool) :
    Except DictionaryResult (List Tuple × Nat × List KeyUpdate) :=
  if 1 + entriesSize (mergeEntries dest src update_existing_keys_only) ≤ dest_max_size then
    .ok (mergeEntries dest src update_existing_keys_only,
         1 + entriesSize (mergeEntries dest src update_existing_keys_only),
         mergeCallbacks dest src update_existing_keys_only)
  else
    .error .DICT_NOT_ENOUGH_STORAGE

/-- The entry list of a merge result, when it succeeded. -/
def mergeResultEntries
    (r : Except DictionaryResult (List Tuple × Nat × List KeyUpdate)) :
    Option (List Tuple) :=
  match r with
  | .ok (m, _, _) => some m
  | .error _ => none

/-! ## Tuplet and the TupletCString macro -/

/-- The value alternatives of a `Tuplet` (the C anonymous union), as a sum
type: a byte-array reference, a C-string reference (`none` models a NULL
pointer), or inline integer storage. Each alternative carries the length
respectively width field of its C struct. -/
inductive TupletValue where
  | bytes (data : List Nat) (length : Nat)
  | cstring (data : Option (List Nat)) (length : Nat)
  | integer (storage : Nat) (width : Nat)
  deriving DecidableEq, Repr

/-- The non-serialized `Tuplet` template structure of `pebble.h`. -/
structure Tuplet where
  type : Nat
  key : Nat
  value : TupletValue
  deriving DecidableEq, Repr

/-- C `strlen` on a modelled character buffer: the number of bytes before
the first zero byte. -/
def strlen (s : List Nat) : Nat :=
  (s.takeWhile (fun b => b != 0)).length

/-- Transcribed from the `TupletCString` macro of `pebble.h` (line 1873):
`((const Tuplet) { .type = TUPLE_CSTRING, .key = _key, .cstring = { .data =
_cstring, .length = _cstring ? strlen(_cstring) + 1 : 0 }})`. A NULL string
pointer is modelled as `none`; the C conditional evaluates `strlen` only on
a non-NULL pointer, which the `match` mirrors. -/
def TupletCString (key : Nat) (cstr : Option (List Nat)) : Tuplet :=
  ⟨TUPLE_CSTRING, key,
    .cstring cstr
      (match cstr with
       | some s => strlen s + 1
       | none => 0)⟩

/-! ## Concrete scenario data -/

/-- 256 byte-array write calls with distinct keys and empty payloads; their
serialized dictionary needs `1 + 256 * 7 = 1793` bytes, yet the entry count
does not fit the u8 count header. -/
def ops256 : List WriteOp :=
  (List.range 256).map (fun k => .data k [])

/-- Three valid write calls with distinct keys: a byte array, the C-string
"hi", and the signed 16-bit integer -2. -/
def ops3 : List WriteOp :=
  [.data 1 [42], .cstring 2 [104, 105], .int 3 (-2) 2 true]

/-- The iterator state after successfully writing `ops3` into storage of
exactly the required 28 bytes, spelling out the serialized payload. -/
def it3 : DictionaryIterator :=
  ⟨28, 3,
   [1, 0, 0, 0, 0, 1, 0, 42,
    2, 0, 0, 0, 1, 3, 0, 104, 105, 0,
    3, 0, 0, 0, 3, 2, 0, 254, 255]⟩

/-- The destination dictionary of the spec's merge example:
`{1: "a", 2: "b"}`. -/
def destEx : List Tuple :=
  [⟨1, TUPLE_CSTRING, [97, 0]⟩, ⟨2, TUPLE_CSTRING, [98, 0]⟩]

/-- The source dictionary of the spec's merge example: `{2: "c", 3: "d"}`. -/
def srcEx : List Tuple :=
  [⟨2, TUPLE_CSTRING, [99, 0]⟩, ⟨3, TUPLE_CSTRING, [100, 0]⟩]

/-- A dictionary holding the same key twice with different values. -/
def dupD : List Tuple :=
  [⟨1, TUPLE_BYTE_ARRAY, [0]⟩, ⟨1, TUPLE_BYTE_ARRAY, [1]⟩]

/-! # Theorems -/

/-! ## Byte-encoding lemmas -/

theorem toLE_length (w v : Nat) : (toLE w v).length = w := by
  induction w generalizing v with
  | zero => rfl
  | succ k ih => simp [toLE, ih]

/-- Auxiliary arithmetic identity used by `fromLE_toLE`. -/
theorem mod_add_mul_div_mod (v b m : Nat) :
    v % b + b * (v / b % m) = v % (b * m) := by
  rw [Nat.mod_mul]

theorem fromLE_toLE (w v : Nat) : fromLE (toLE w v) = v % 2 ^ (8 * w) := by
  induction w generalizing v with
  | zero => simp [toLE, fromLE, Nat.mod_one]
  | succ k ih =>
    simp only [toLE, fromLE, ih]
    have h256 : (2 : Nat) ^ (8 * (k + 1)) = 256 * 2 ^ (8 * k) := by
      rw [Nat.mul_succ, Nat.pow_add]; ring
    rw [h256, mod_add_mul_div_mod v 256 (2 ^ (8 * k))]

theorem toLE_bytes_lt (w v : Nat) : ∀ b ∈ toLE w v, b < 256 := by
  induction w generalizing v with
  | zero => intro b hb; simp [toLE] at hb
  | succ k ih =>
    intro b hb
    simp only [toLE, List.mem_cons] at hb
    rcases hb with h | h
    · exact h ▸ Nat.mod_lt _ (by norm_num)
    · exact ih _ b h

theorem tupleBytes_length (t : Tuple) :
    (tupleBytes t).length = 7 + t.value.length := by
  simp [tupleBytes, toLE_length]; omega

/-! ## Size calculator -/

theorem dict_calc_buffer_size_go_spec (n : Nat) (ls : List Nat) (acc : Nat)
    (h : ls.length = n) :
    dict_calc_buffer_size.go n ls acc = acc + 7 * n + ls.sum := by
  induction n generalizing ls acc with
  | zero =>
    have : ls = [] := List.eq_nil_of_length_eq_zero h
    simp [this, dict_calc_buffer_size.go]
  | succ k ih =>
    cases ls with
    | nil => simp at h
    | cons l ls' =>
      simp only [List.length_cons, Nat.succ.injEq] at h
      simp only [dict_calc_buffer_size.go, ih ls' _ h, List.sum_cons]
      ring

/-- Claim C5: for every entry count `n ≥ 0` and every list of `n` value
lengths, `dict_calc_buffer_size` returns exactly `1 + 7*n + (sum of the
value lengths)`; it is a pure Lean function, hence side-effect free. -/
theorem dict_calc_buffer_size_exact (n : Nat) (lens : List Nat)
    (h : lens.length = n) :
    dict_calc_buffer_size n lens = 1 + 7 * n + lens.sum := by
  simpa using dict_calc_buffer_size_go_spec n lens 1 h

/-- Witness for claim C5 at `n = 3`, `lens = [2, 5, 9]`. -/
theorem dict_calc_buffer_size_exact_witness :
    dict_calc_buffer_size 3 [2, 5, 9] = 1 + 7 * 3 + 16 :=
  dict_calc_buffer_size_exact 3 [2, 5, 9] (by decide)

/-! ## Writer lemmas -/

/-- A successful valid write call appends exactly the serialized bytes of
its tuple and increments the count. -/
theorem applyWriteOp_ok (it it' : DictionaryIterator) (op : WriteOp)
    (hv : op.valid) (h : applyWriteOp it op = .ok it') :
    it' = ⟨it.size, it.count + 1, it.payload ++ tupleBytes op.tuple⟩ ∧
      1 + it'.payload.length ≤ it.size := by
  have hmain : it' = ⟨it.size, it.count + 1, it.payload ++ tupleBytes op.tuple⟩ ∧
      1 + it.payload.length + (7 + op.tuple.value.length) ≤ it.size := by
    cases op with
    | data k bs =>
      simp only [applyWriteOp, dict_write_data, appendTuple, WriteOp.tuple] at h ⊢
      split at h
      · exact ⟨(Except.ok.injEq _ _).mp h |>.symm, by assumption⟩
      · exact absurd h (by simp)
    | cstring k cs =>
      simp only [applyWriteOp, dict_write_cstring, appendTuple, WriteOp.tuple] at h ⊢
      split at h
      · exact ⟨(Except.ok.injEq _ _).mp h |>.symm, by assumption⟩
      · exact absurd h (by simp)
    | int k v w s =>
      simp only [applyWriteOp, dict_write_int, appendTuple, WriteOp.tuple] at h ⊢
      rw [if_pos hv.2] at h
      split at h
      · exact ⟨(Except.ok.injEq _ _).mp h |>.symm, by assumption⟩
      · exact absurd h (by simp)
  refine ⟨hmain.1, ?_⟩
  have := hmain.2
  rw [hmain.1]
  simp only [List.length_append, tupleBytes_length]
  omega

/-- A successful write session appends, after the initial iterator's
payload, exactly the concatenated serialized tuples of its calls, in
order. -/
theorem writeList_ok (ops : List WriteOp) (it it' : DictionaryIterator)
    (hv : ∀ op ∈ ops, op.valid) (h : writeList it ops = .ok it') :
    it'.size = it.size ∧ it'.count = it.count + ops.length ∧
      it'.payload = it.payload ++ entriesBytes (ops.map WriteOp.tuple) := by
  induction ops generalizing it with
  | nil =>
    simp only [writeList, Except.ok.injEq] at h
    simp [← h, entriesBytes]
  | cons op ops ih =>
    simp only [writeList] at h
    cases hstep : applyWriteOp it op with
    | error e => rw [hstep] at h; exact absurd h (by simp)
    | ok itm =>
      rw [hstep] at h
      have hv1 : op.valid := hv op (List.mem_cons_self _ _)
      have hstep' := applyWriteOp_ok it itm op hv1 hstep
      have ihr := ih itm (fun o ho => hv o (List.mem_cons_of_mem _ ho)) h
      rw [hstep'.1] at ihr
      simp only [entriesBytes, List.map_cons, List.flatten_cons] at ihr ⊢
      have h1 : it'.count = it.count + 1 + ops.length := ihr.2.1
      refine ⟨ihr.1, by simp only [List.length_cons]; omega, ?_⟩
      have h2 : it'.payload =
          (it.payload ++ tupleBytes op.tuple) ++
            ((ops.map WriteOp.tuple).map tupleBytes).flatten := ihr.2.2
      rw [h2]
      simp [List.append_assoc]

/-- A valid write call serializes a well-formed tuple. -/
theorem WriteOp.tuple_wf (op : WriteOp) (h : op.valid) : op.tuple.wf := by
  cases op with
  | data k bs =>
    exact ⟨h.1, by norm_num [WriteOp.tuple, TUPLE_BYTE_ARRAY], h.2.1⟩
  | cstring k cs =>
    refine ⟨h.1, by norm_num [WriteOp.tuple, TUPLE_CSTRING], ?_⟩
    simpa [WriteOp.tuple] using h.2.1
  | int k v w s =>
    refine ⟨h.1, ?_, ?_⟩
    · simp only [WriteOp.tuple]
      split <;> norm_num [TUPLE_INT, TUPLE_UINT]
    · simp only [WriteOp.tuple, toLE_length]
      rcases h.2 with h | h | h <;> simp [h]

/-! ## Parser lemmas -/

/-- Parsing at an offset where a well-formed serialized entry lies, with
the entry entirely inside the declared size, succeeds and yields exactly
that entry. -/
theorem readTupleAt_exact (buf : List Nat) (size off : Nat) (t : Tuple)
    (tail : List Nat)
    (hdrop : buf.drop off = tupleBytes t ++ tail)
    (hsz : off + 7 + t.value.length ≤ size)
    (hk : t.key < 2 ^ 32) (hlen : t.value.length < 2 ^ 16) :
    readTupleAt buf size off = some (t, off + 7 + t.value.length) := by
  have h4 : buf.drop off =
      toLE 4 t.key ++ ([t.type] ++ (toLE 2 t.value.length ++ (t.value ++ tail))) := by
    simpa [tupleBytes, List.append_assoc] using hdrop
  have hA : (buf.drop off).take 4 = toLE 4 t.key := by
    rw [h4]; exact List.take_left' (toLE_length 4 _)
  have hd4 : (buf.drop off).drop 4 =
      [t.type] ++ (toLE 2 t.value.length ++ (t.value ++ tail)) := by
    rw [h4]; exact List.drop_left' (toLE_length 4 _)
  have hB : ((buf.drop off).drop 4).take 1 = [t.type] := by
    rw [hd4]; rfl
  have hd5 : (buf.drop off).drop 5 = toLE 2 t.value.length ++ (t.value ++ tail) := by
    have h55 : ((buf.drop off).drop 4).drop 1 = (buf.drop off).drop 5 :=
      List.drop_drop 1 4 _
    rw [← h55, hd4]; rfl
  have hC : ((buf.drop off).drop 5).take 2 = toLE 2 t.value.length := by
    rw [hd5]; exact List.take_left' (toLE_length 2 _)
  have hlenC : fromLE (((buf.drop off).drop 5).take 2) = t.value.length := by
    rw [hC, fromLE_toLE]
    exact Nat.mod_eq_of_lt (by norm_num at hlen ⊢; omega)
  have hd7 : (buf.drop off).drop 7 = t.value ++ tail := by
    have h57 : ((buf.drop off).drop 5).drop 2 = (buf.drop off).drop 7 :=
      List.drop_drop 2 5 _
    rw [← h57, hd5]
    exact List.drop_left' (toLE_length 2 _)
  have hD : ((buf.drop off).drop 7).take t.value.length = t.value := by
    rw [hd7]; exact List.take_left' rfl
  have hkey : fromLE ((buf.drop off).take 4) = t.key := by
    rw [hA, fromLE_toLE]
    exact Nat.mod_eq_of_lt (by norm_num at hk ⊢; omega)
  have hty : fromLE (((buf.drop off).drop 4).take 1) = t.type := by
    rw [hB]; simp [fromLE]
  unfold readTupleAt
  simp only [hlenC, hkey, hty, hD]
  rw [if_pos (by omega), if_pos hsz]

/-- Iterating `dict_read_next` over a buffer whose bytes from `off` start
with the serialization of `ts`, lying entirely inside the declared size,
yields exactly `ts`. -/
theorem readAllAux_exact (ts : List Tuple) (buf : List Nat) (size : Nat) :
    ∀ off tail, (∀ t ∈ ts, t.wf) →
      buf.drop off = entriesBytes ts ++ tail →
      off + (entriesBytes ts).length ≤ size →
      readAllAux ts.length ⟨buf, size, off, ts.length⟩ = ts := by
  induction ts with
  | nil => intro off tail _ _ _; rfl
  | cons t ts ih =>
    intro off tail hwf hdrop hsz
    have hsplit : buf.drop off = tupleBytes t ++ (entriesBytes ts ++ tail) := by
      simpa [entriesBytes, List.append_assoc] using hdrop
    have hlens : (entriesBytes (t :: ts)).length =
        (7 + t.value.length) + (entriesBytes ts).length := by
      simp [entriesBytes, tupleBytes_length]
    have hwf1 := hwf t (List.mem_cons_self _ _)
    have hread := readTupleAt_exact buf size off t (entriesBytes ts ++ tail)
      hsplit (by omega) hwf1.1 hwf1.2.2
    have hdrop' : buf.drop (off + 7 + t.value.length) = entriesBytes ts ++ tail := by
      have harith : off + 7 + t.value.length = off + (7 + t.value.length) := by omega
      rw [harith, ← List.drop_drop, hsplit]
      exact List.drop_left' (tupleBytes_length t)
    have hnext : dict_read_next ⟨buf, size, off, ts.length + 1⟩ =
        some (⟨buf, size, off + 7 + t.value.length, ts.length⟩, t) := by
      unfold dict_read_next
      rw [if_neg (by simp)]
      simp [hread]
    show readAllAux (ts.length + 1) ⟨buf, size, off, ts.length + 1⟩ = t :: ts
    rw [readAllAux, hnext]
    show t :: readAllAux ts.length ⟨buf, size, off + 7 + t.value.length, ts.length⟩ = t :: ts
    exact congrArg (t :: ·)
      (ih (off + 7 + t.value.length) tail
        (fun u hu => hwf u (List.mem_cons_of_mem _ hu)) hdrop' (by omega))

/-- Reading back a well-formed dictionary buffer (count header plus the
serialization of at most 255 well-formed entries) yields exactly those
entries. -/
theorem readAll_entriesBytes (ts : List Tuple) (h255 : ts.length ≤ 255)
    (hwf : ∀ t ∈ ts, t.wf) :
    readAll (toLE 1 ts.length ++ entriesBytes ts) (1 + (entriesBytes ts).length) = ts := by
  have hhead : (toLE 1 ts.length ++ entriesBytes ts).take 1 = toLE 1 ts.length :=
    List.take_left' (toLE_length 1 _)
  have hcount : fromLE ((toLE 1 ts.length ++ entriesBytes ts).take 1) = ts.length := by
    rw [hhead, fromLE_toLE]
    exact Nat.mod_eq_of_lt (by norm_num; omega)
  have hdrop1 : (toLE 1 ts.length ++ entriesBytes ts).drop 1 = entriesBytes ts :=
    List.drop_left' (toLE_length 1 _)
  cases ts with
  | nil =>
    unfold readAll dict_read_begin_from_buffer
    rw [if_pos (by omega), if_pos (by simpa using hcount)]
  | cons t ts' =>
    have hsplit : (toLE 1 (t :: ts').length ++ entriesBytes (t :: ts')).drop 1 =
        tupleBytes t ++ entriesBytes ts' := by
      rw [hdrop1]; simp [entriesBytes]
    have hlens : (entriesBytes (t :: ts')).length =
        (7 + t.value.length) + (entriesBytes ts').length := by
      simp [entriesBytes, tupleBytes_length]
    have hwf1 := hwf t (List.mem_cons_self _ _)
    have hread := readTupleAt_exact _ (1 + (entriesBytes (t :: ts')).length) 1 t
      (entriesBytes ts') hsplit (by omega) hwf1.1 hwf1.2.2
    have hbegin : dict_read_begin_from_buffer
        (toLE 1 (t :: ts').length ++ entriesBytes (t :: ts'))
        (1 + (entriesBytes (t :: ts')).length) =
        some (⟨toLE 1 (t :: ts').length ++ entriesBytes (t :: ts'),
               1 + (entriesBytes (t :: ts')).length,
               1 + 7 + t.value.length, ts'.length⟩, t) := by
      unfold dict_read_begin_from_buffer
      rw [if_pos (by omega)]
      rw [hcount]
      rw [if_neg (by simp)]
      rw [hread]
      simp [hcount]
    unfold readAll
    rw [hbegin]
    show t :: readAllAux ts'.length
        ⟨toLE 1 (t :: ts').length ++ entriesBytes (t :: ts'),
         1 + (entriesBytes (t :: ts')).length,
         1 + 7 + t.value.length, ts'.length⟩ = t :: ts'
    refine congrArg (t :: ·) (readAllAux_exact ts'
      (toLE 1 (t :: ts').length ++ entriesBytes (t :: ts'))
      (1 + (entriesBytes (t :: ts')).length)
      (1 + 7 + t.value.length) []
      (fun u hu => hwf u (List.mem_cons_of_mem _ hu)) ?_ (by omega))
    rw [List.append_nil]
    have harith : 1 + 7 + t.value.length = 1 + (7 + t.value.length) := by omega
    rw [harith, ← List.drop_drop, hdrop1]
    simp only [entriesBytes, List.map_cons, List.flatten_cons]
    exact List.drop_left' (tupleBytes_length t)

/-! ## Claim C1: round trip -/

/-- Claim C1 (amended: the dictionary holds at most 255 entries, the u8
count header's capacity): serializing a sequence of valid write calls with
unique keys via `dict_write_begin` / `dict_write_data` /
`dict_write_cstring` / `dict_write_int` followed by `dict_write_end`, and
then iterating the resulting buffer with `dict_read_begin_from_buffer` /
`dict_read_next`, yields exactly the written sequence of (key, type,
length, value bytes), in order. -/
theorem dict_round_trip (size : Nat) (ops : List WriteOp) (it : DictionaryIterator)
    (hv : ∀ op ∈ ops, op.valid)
    (hn : ops.length ≤ 255)
    (hkeys : (ops.map WriteOp.key).Nodup)
    (hw : writeAll size ops = .ok it) :
    readAll (dict_write_end it) (dict_write_end it).length = ops.map WriteOp.tuple := by
  unfold writeAll at hw
  cases hbegin : dict_write_begin size with
  | error e => rw [hbegin] at hw; cases hw
  | ok it0 =>
    rw [hbegin] at hw
    have hit0 : it0 = ⟨size, 0, []⟩ := by
      unfold dict_write_begin at hbegin
      split at hbegin
      · cases hbegin
      · exact ((Except.ok.injEq _ _).mp hbegin).symm
    subst hit0
    have hchar := writeList_ok ops _ it hv hw
    have hcount : it.count = ops.length := by simpa using hchar.2.1
    have hpayload : it.payload = entriesBytes (ops.map WriteOp.tuple) := by
      simpa using hchar.2.2
    have hend : dict_write_end it =
        toLE 1 (ops.map WriteOp.tuple).length ++ entriesBytes (ops.map WriteOp.tuple) := by
      rw [dict_write_end, hcount, hpayload, List.length_map]
    have hlen : (dict_write_end it).length =
        1 + (entriesBytes (ops.map WriteOp.tuple)).length := by
      rw [hend]; simp [toLE_length]
    rw [hend]
    have hlen' : (toLE 1 (ops.map WriteOp.tuple).length ++
        entriesBytes (ops.map WriteOp.tuple)).length =
        1 + (entriesBytes (ops.map WriteOp.tuple)).length := by
      simp [toLE_length]
    rw [hlen']
    exact readAll_entriesBytes (ops.map WriteOp.tuple)
      (by simpa using hn)
      (by
        intro u hu
        obtain ⟨op, hop, rfl⟩ := List.mem_map.mp hu
        exact WriteOp.tuple_wf op (hv op hop))

/-- When the serialized entries of all (valid) calls fit the declared
storage, every write succeeds. -/
theorem writeList_total (ops : List WriteOp) (it : DictionaryIterator)
    (hv : ∀ op ∈ ops, op.valid)
    (h : 1 + it.payload.length + entriesSize (ops.map WriteOp.tuple) ≤ it.size) :
    ∃ it', writeList it ops = .ok it' := by
  induction ops generalizing it with
  | nil => exact ⟨it, rfl⟩
  | cons op ops ih =>
    have hv1 := hv op (List.mem_cons_self _ _)
    have hes : entriesSize ((op :: ops).map WriteOp.tuple) =
        (7 + op.tuple.value.length) + entriesSize (ops.map WriteOp.tuple) := by
      simp [entriesSize]
    have hstep : applyWriteOp it op =
        .ok ⟨it.size, it.count + 1, it.payload ++ tupleBytes op.tuple⟩ := by
      cases op with
      | data k bs =>
        simp only [applyWriteOp, dict_write_data, appendTuple, WriteOp.tuple] at hes ⊢
        rw [if_pos (by omega)]
      | cstring k cs =>
        simp only [applyWriteOp, dict_write_cstring, appendTuple, WriteOp.tuple] at hes ⊢
        rw [if_pos (by omega)]
      | int k v w s =>
        simp only [applyWriteOp, dict_write_int, appendTuple, WriteOp.tuple] at hes ⊢
        rw [if_pos hv1.2, if_pos (by omega)]
    obtain ⟨it', hit'⟩ := ih ⟨it.size, it.count + 1, it.payload ++ tupleBytes op.tuple⟩
      (fun o ho => hv o (List.mem_cons_of_mem _ ho))
      (by
        simp only [List.length_append, tupleBytes_length]
        omega)
    refine ⟨it', ?_⟩
    show writeList it (op :: ops) = .ok it'
    simp only [writeList]
    rw [hstep]
    exact hit'

/-- A finalized buffer whose count header byte is zero reads back as the
empty dictionary. -/
theorem readAll_zero_header (rest : List Nat) (size : Nat) :
    readAll (0 :: rest) size = [] := by
  have hb : dict_read_begin_from_buffer (0 :: rest) size = none := by
    unfold dict_read_begin_from_buffer
    by_cases h : 1 ≤ size
    · rw [if_pos h, if_pos (by simp [fromLE])]
    · rw [if_neg h]
  unfold readAll
  rw [hb]

/-- Characterization of a fully successful write session started by
`dict_write_begin`. -/
theorem writeAll_ok_char (size : Nat) (ops : List WriteOp) (it : DictionaryIterator)
    (hv : ∀ op ∈ ops, op.valid) (hw : writeAll size ops = .ok it) :
    it.size = size ∧ it.count = ops.length ∧
      it.payload = entriesBytes (ops.map WriteOp.tuple) := by
  unfold writeAll at hw
  cases hbegin : dict_write_begin size with
  | error e => rw [hbegin] at hw; cases hw
  | ok it0 =>
    rw [hbegin] at hw
    have hit0 : it0 = ⟨size, 0, []⟩ := by
      unfold dict_write_begin at hbegin
      split at hbegin
      · cases hbegin
      · exact ((Except.ok.injEq _ _).mp hbegin).symm
    subst hit0
    have hchar := writeList_ok ops _ it hv hw
    exact ⟨hchar.1, by simpa using hchar.2.1, by simpa using hchar.2.2⟩

/-- Every one of the 256 write calls of `ops256` is valid. -/
theorem ops256_valid : ∀ op ∈ ops256, op.valid := by
  intro op hop
  obtain ⟨k, hk, rfl⟩ := List.mem_map.mp hop
  have hk' : k < 256 := List.mem_range.mp hk
  exact ⟨Nat.lt_of_lt_of_le hk' (by norm_num), by norm_num, by simp⟩

/-- Writing the 256 entries of `ops256` into 1793 bytes of storage
succeeds, producing a dictionary of count 256 (over some payload). -/
theorem writeAll_ops256_ok :
    ∃ p, writeAll 1793 ops256 = .ok ⟨1793, 256, p⟩ := by
  have hsize : entriesSize (ops256.map WriteOp.tuple) = 1792 := by
    simp only [ops256, entriesSize, List.map_map]
    rw [show ((fun t => 7 + t.value.length) ∘ WriteOp.tuple ∘ fun k => WriteOp.data k []) =
        (fun _ => 7) from rfl]
    rw [List.map_const', List.sum_replicate, List.length_range]
    norm_num
  obtain ⟨it, hit⟩ := writeList_total ops256 ⟨1793, 0, []⟩ ops256_valid
    (by simp only [hsize]; decide)
  have hWA : writeAll 1793 ops256 = .ok it := by
    unfold writeAll dict_write_begin
    rw [if_neg (by omega)]
    exact hit
  have hchar := writeAll_ok_char 1793 ops256 it ops256_valid hWA
  have hlen : ops256.length = 256 := by simp [ops256]
  refine ⟨it.payload, ?_⟩
  rw [hWA]
  have hit' : it = ⟨1793, 256, it.payload⟩ := by
    cases it
    simp only at hchar ⊢
    rw [hchar.1, hchar.2.1, hlen]
  rw [← hit']

/-- A successful write session whose entry count is a multiple of 256
reads back as the empty dictionary: the u8 count header byte wraps to
zero. -/
theorem roundTrip_count_mod (size : Nat) (ops : List WriteOp) (it : DictionaryIterator)
    (hw : writeAll size ops = .ok it) (hcount : it.count % 256 = 0) :
    roundTrip size ops = some [] := by
  unfold roundTrip
  rw [hw]
  have hend : dict_write_end it = 0 :: it.payload := by
    rw [dict_write_end]
    have h0 : toLE 1 it.count = [0] := by
      simp [toLE, hcount]
    rw [h0]
    rfl
  show some (readAll (dict_write_end it) (dict_write_end it).length) = some []
  rw [hend, readAll_zero_header]

/-- The finalized buffer of a successful write session. -/
theorem finalBuffer_ok (size : Nat) (ops : List WriteOp) (it : DictionaryIterator)
    (hw : writeAll size ops = .ok it) :
    finalBuffer size ops = some (dict_write_end it) := by
  unfold finalBuffer
  rw [hw]

/-- Witness for claim C1 at the three-entry dictionary `ops3` written into
its exact storage size of 28 bytes. -/
theorem dict_round_trip_witness :
    readAll (dict_write_end it3) (dict_write_end it3).length = ops3.map WriteOp.tuple :=
  dict_round_trip 28 ops3 it3 (by decide) (by decide) (by decide) (by rfl)

/-- Counterexample to claim C1 as stated (without a bound on the number of
entries): the 256 distinct-key valid writes of `ops256` all succeed in a
1793-byte buffer, yet the count header byte wraps to 0 and reading the
finalized buffer back yields the empty sequence instead of the 256 written
entries. -/
theorem dict_round_trip_cex :
    (∀ op ∈ ops256, op.valid) ∧ (ops256.map WriteOp.key).Nodup ∧
      roundTrip 1793 ops256 = some [] ∧ ops256.map WriteOp.tuple ≠ [] := by
  refine ⟨ops256_valid, ?_, ?_, ?_⟩
  · have hkeys : ops256.map WriteOp.key = List.range 256 := by
      simp only [ops256, List.map_map]
      exact List.map_id _
    rw [hkeys]
    exact List.nodup_range 256
  · obtain ⟨p, hp⟩ := writeAll_ops256_ok
    exact roundTrip_count_mod 1793 ops256 ⟨1793, 256, p⟩ hp (by norm_num)
  · intro h
    have := congrArg List.length h
    simp [ops256] at this

/-! ## Claim C2: wire-format exactness -/

/-- The writer's per-entry serialization agrees byte for byte with the
spec grammar's `Entry` production. -/
theorem tupleBytes_eq_specEncodeEntry (t : Tuple) : tupleBytes t = specEncodeEntry t := by
  simp only [tupleBytes, specEncodeEntry, toLE, List.cons_append, List.nil_append,
    List.append_assoc]
  norm_num [Nat.div_div_eq_div_mul]

/-- Claim C2 (amended: the dictionary holds at most 255 entries, the u8
count header's capacity): the finalized buffer of a successful write
session is bit-exact per the spec grammar, `count:u8` followed by, per
entry, `key:u32(LE) type:u8 length:u16(LE) value:u8[length]`, integers
little-endian. -/
theorem dict_wire_format (size : Nat) (ops : List WriteOp) (it : DictionaryIterator)
    (hv : ∀ op ∈ ops, op.valid) (hn : ops.length ≤ 255)
    (hw : writeAll size ops = .ok it) :
    dict_write_end it = specEncodeDict (ops.map WriteOp.tuple) := by
  obtain ⟨hs, hc, hp⟩ := writeAll_ok_char size ops it hv hw
  rw [dict_write_end, hc, hp]
  have h1 : toLE 1 ops.length = [ops.length] := by
    simp only [toLE]
    rw [Nat.mod_eq_of_lt (by omega)]
  rw [h1, specEncodeDict, entriesBytes]
  have h2 : (ops.map WriteOp.tuple).map tupleBytes =
      (ops.map WriteOp.tuple).map specEncodeEntry :=
    List.map_congr_left (fun t _ => tupleBytes_eq_specEncodeEntry t)
  rw [h2, List.length_map]
  rfl

/-- Witness for claim C2 at the three-entry dictionary `ops3`. -/
theorem dict_wire_format_witness :
    dict_write_end it3 = specEncodeDict (ops3.map WriteOp.tuple) :=
  dict_wire_format 28 ops3 it3 (by decide) (by decide) (by rfl)

/-- Counterexample to claim C2 as stated (without a bound on the number of
entries): the 256-entry dictionary of `ops256` finalizes successfully, but
its buffer starts with the wrapped count byte 0 while the spec grammar's
encoding of its entry sequence starts with the count 256, so the buffer is
not bit-exact per the format. -/
theorem dict_wire_format_cex :
    (∀ op ∈ ops256, op.valid) ∧
      finalBuffer 1793 ops256 ≠ none ∧
      finalBuffer 1793 ops256 ≠ some (specEncodeDict (ops256.map WriteOp.tuple)) := by
  obtain ⟨p, hp⟩ := writeAll_ops256_ok
  have hfb := finalBuffer_ok 1793 ops256 ⟨1793, 256, p⟩ hp
  have hend : dict_write_end ⟨1793, 256, p⟩ = 0 :: p := by
    rw [dict_write_end]
    norm_num [toLE]
  refine ⟨ops256_valid, ?_, ?_⟩
  · rw [hfb]
    simp
  · rw [hfb, hend]
    intro h
    have hlists := (Option.some.injEq _ _).mp h
    rw [specEncodeDict] at hlists
    have hlen : (ops256.map WriteOp.tuple).length = 256 := by simp [ops256]
    rw [hlen] at hlists
    exact absurd (List.head_eq_of_cons_eq hlists) (by norm_num)

/-! ## Claim C3: corruption resistance -/

/-- Slices of the truncated buffer agree with slices of the original as
long as they end at or before the truncation point. -/
theorem take_slice_eq (buf : List Nat) (size p n : Nat) (h : p + n ≤ size) :
    ((buf.take size).drop p).take n = (buf.drop p).take n := by
  rw [List.drop_take, List.take_take, Nat.min_eq_left (by omega)]

/-- Variant of `take_slice_eq` for a slice addressed by two nested
drops. -/
theorem take_slice_eq2 (buf : List Nat) (size p q n : Nat) (h : p + q + n ≤ size) :
    (((buf.take size).drop p).drop q).take n = ((buf.drop p).drop q).take n := by
  rw [List.drop_drop q p (buf.take size), List.drop_drop q p buf]
  exact take_slice_eq buf size (p + q) n (by omega)

/-- Parsing one entry never depends on bytes at offsets `≥ size`: it gives
the same result on the buffer truncated at `size`. -/
theorem readTupleAt_take (buf : List Nat) (size off : Nat) :
    readTupleAt (buf.take size) size off = readTupleAt buf size off := by
  unfold readTupleAt
  by_cases h7 : off + 7 ≤ size
  · rw [if_pos h7, if_pos h7]
    have e5 : (((buf.take size).drop off).drop 5).take 2 =
        ((buf.drop off).drop 5).take 2 :=
      take_slice_eq2 buf size off 5 2 (by omega)
    rw [e5]
    by_cases hL : off + 7 + fromLE (((buf.drop off).drop 5).take 2) ≤ size
    · rw [if_pos hL, if_pos hL]
      have e0 : ((buf.take size).drop off).take 4 = (buf.drop off).take 4 :=
        take_slice_eq buf size off 4 (by omega)
      have e4 : (((buf.take size).drop off).drop 4).take 1 =
          ((buf.drop off).drop 4).take 1 :=
        take_slice_eq2 buf size off 4 1 (by omega)
      have e7 : (((buf.take size).drop off).drop 7).take
            (fromLE (((buf.drop off).drop 5).take 2)) =
          ((buf.drop off).drop 7).take (fromLE (((buf.drop off).drop 5).take 2)) :=
        take_slice_eq2 buf size off 7
          (fromLE (((buf.drop off).drop 5).take 2)) (by omega)
      rw [e0, e4, e7]
    · rw [if_neg hL, if_neg hL]
  · rw [if_neg h7, if_neg h7]

/-- A successfully parsed entry lies entirely inside the declared size: the
returned next offset covers the 7-byte header and the value bytes, and
stays at or below `size`. -/
theorem readTupleAt_ok_bound (buf : List Nat) (size off : Nat) (t : Tuple) (off' : Nat)
    (h : readTupleAt buf size off = some (t, off')) :
    off + 7 + t.value.length ≤ off' ∧ off' ≤ size := by
  unfold readTupleAt at h
  by_cases h7 : off + 7 ≤ size
  · rw [if_pos h7] at h
    by_cases hL : off + 7 + fromLE (((buf.drop off).drop 5).take 2) ≤ size
    · rw [if_pos hL] at h
      have h' := Option.some.inj h
      have ht : t = ⟨fromLE ((buf.drop off).take 4),
          fromLE (((buf.drop off).drop 4).take 1),
          ((buf.drop off).drop 7).take (fromLE (((buf.drop off).drop 5).take 2))⟩ :=
        ((Prod.ext_iff.mp h').1).symm
      have hoff : off' = off + 7 + fromLE (((buf.drop off).drop 5).take 2) :=
        ((Prod.ext_iff.mp h').2).symm
      have hvl : t.value.length ≤ fromLE (((buf.drop off).drop 5).take 2) := by
        rw [ht]
        simp only [List.length_take]
        exact Nat.min_le_left _ _
      omega
    · rw [if_neg hL] at h; cases h
  · rw [if_neg h7] at h; cases h

/-- The `dict_read_next` iteration never depends on bytes at offsets
`≥ size`. -/
theorem readAllAux_take (buf : List Nat) (size : Nat) :
    ∀ fuel off n, readAllAux fuel ⟨buf.take size, size, off, n⟩ =
      readAllAux fuel ⟨buf, size, off, n⟩ := by
  intro fuel
  induction fuel with
  | zero => intro off n; rfl
  | succ fuel ih =>
    intro off n
    simp only [readAllAux, dict_read_next]
    by_cases hn : n = 0
    · rw [if_pos hn, if_pos hn]
    · rw [if_neg hn, if_neg hn]
      rw [readTupleAt_take]
      cases h : readTupleAt buf size off with
      | none => rfl
      | some pr =>
        obtain ⟨t, off'⟩ := pr
        show t :: readAllAux fuel ⟨buf.take size, size, off', n - 1⟩ =
          t :: readAllAux fuel ⟨buf, size, off', n - 1⟩
        exact congrArg _ (ih off' (n - 1))

/-- The whole read traversal never depends on bytes at offsets `≥ size`. -/
theorem readAll_take (buf : List Nat) (size : Nat) :
    readAll (buf.take size) size = readAll buf size := by
  unfold readAll dict_read_begin_from_buffer
  by_cases h1 : 1 ≤ size
  · rw [if_pos h1, if_pos h1]
    have hhead : (buf.take size).take 1 = buf.take 1 := by
      rw [List.take_take, Nat.min_eq_left h1]
    rw [hhead]
    by_cases hz : fromLE (buf.take 1) = 0
    · rw [if_pos hz, if_pos hz]
    · rw [if_neg hz, if_neg hz]
      rw [readTupleAt_take]
      cases h : readTupleAt buf size 1 with
      | none => rfl
      | some pr =>
        obtain ⟨t, off⟩ := pr
        show t :: readAllAux (fromLE (buf.take 1) - 1)
            ⟨buf.take size, size, off, fromLE (buf.take 1) - 1⟩ =
          t :: readAllAux (fromLE (buf.take 1) - 1)
            ⟨buf, size, off, fromLE (buf.take 1) - 1⟩
        exact congrArg _ (readAllAux_take buf size _ off _)
  · rw [if_neg h1, if_neg h1]

/-- Every entry delivered by the `dict_read_next` iteration lies entirely
inside the declared size: starting at offset `off`, the serialized extent
of the delivered entries stays at or below `size`. -/
theorem readAllAux_bound (buf : List Nat) (size : Nat) :
    ∀ fuel off n, readAllAux fuel ⟨buf, size, off, n⟩ = [] ∨
      off + entriesSize (readAllAux fuel ⟨buf, size, off, n⟩) ≤ size := by
  intro fuel
  induction fuel with
  | zero => intro off n; left; rfl
  | succ fuel ih =>
    intro off n
    simp only [readAllAux, dict_read_next]
    by_cases hn : n = 0
    · rw [if_pos hn]; left; rfl
    · rw [if_neg hn]
      cases h : readTupleAt buf size off with
      | none => left; rfl
      | some pr =>
        obtain ⟨t, off'⟩ := pr
        have hb := readTupleAt_ok_bound buf size off t off' h
        right
        show off + entriesSize (t :: readAllAux fuel ⟨buf, size, off', n - 1⟩) ≤ size
        have hsz : entriesSize (t :: readAllAux fuel ⟨buf, size, off', n - 1⟩) =
            (7 + t.value.length) + entriesSize (readAllAux fuel ⟨buf, size, off', n - 1⟩) := by
          simp [entriesSize]
        rw [hsz]
        rcases ih off' (n - 1) with h0 | hbound
        · rw [h0]
          simp only [entriesSize, List.map_nil, List.sum_nil]
          omega
        · omega

/-- Claim C3: corruption resistance. First conjunct: the read traversal
(`dict_read_begin_from_buffer` then `dict_read_next` until the sentinel)
returns the same result on the buffer truncated at the supplied size — no
byte at an offset `≥ size` is ever read. Second conjunct: the traversal
stops with the NULL sentinel at or before any overrun: either nothing is
delivered, or the header byte plus the serialized extent of all delivered
entries fits inside the supplied size, no matter how the buffer is
truncated or how inconsistent its declared entry count and lengths are. -/
theorem dict_read_safety : ∀ (buf : List Nat) (size : Nat),
    readAll buf size = readAll (buf.take size) size ∧
      (readAll buf size = [] ∨ 1 + entriesSize (readAll buf size) ≤ size) := by
  intro buf size
  refine ⟨(readAll_take buf size).symm, ?_⟩
  unfold readAll dict_read_begin_from_buffer
  by_cases h1 : 1 ≤ size
  · rw [if_pos h1]
    by_cases hz : fromLE (buf.take 1) = 0
    · rw [if_pos hz]; left; rfl
    · rw [if_neg hz]
      cases h : readTupleAt buf size 1 with
      | none => left; rfl
      | some pr =>
        obtain ⟨t, off⟩ := pr
        have hb := readTupleAt_ok_bound buf size 1 t off h
        right
        show 1 + entriesSize (t :: readAllAux (fromLE (buf.take 1) - 1)
            ⟨buf, size, off, fromLE (buf.take 1) - 1⟩) ≤ size
        have hsz : entriesSize (t :: readAllAux (fromLE (buf.take 1) - 1)
            ⟨buf, size, off, fromLE (buf.take 1) - 1⟩) =
            (7 + t.value.length) + entriesSize (readAllAux (fromLE (buf.take 1) - 1)
              ⟨buf, size, off, fromLE (buf.take 1) - 1⟩) := by
          simp [entriesSize]
        rw [hsz]
        rcases readAllAux_bound buf size (fromLE (buf.take 1) - 1) off
            (fromLE (buf.take 1) - 1) with h0 | hbound
        · rw [h0]
          simp only [entriesSize, List.map_nil, List.sum_nil]
          omega
        · omega
  · rw [if_neg h1]; left; rfl

/-! ## Claim C4: write bounds safety -/

/-- Any successful write call preserves the declared storage size and keeps
the written bytes (header included) within it, regardless of argument
validity. -/
theorem applyWriteOp_ok_size (it itm : DictionaryIterator) (op : WriteOp)
    (h : applyWriteOp it op = .ok itm) :
    itm.size = it.size ∧ 1 + itm.payload.length ≤ it.size := by
  have key : ∀ t : Tuple, appendTuple it t = .ok itm →
      itm.size = it.size ∧ 1 + itm.payload.length ≤ it.size := by
    intro t ht
    unfold appendTuple at ht
    by_cases hc : 1 + it.payload.length + (7 + t.value.length) ≤ it.size
    · rw [if_pos hc] at ht
      have hitm := (Except.ok.injEq _ _).mp ht
      rw [← hitm]
      refine ⟨rfl, ?_⟩
      simp only [List.length_append, tupleBytes_length]
      omega
    · rw [if_neg hc] at ht; cases ht
  cases op with
  | data k bs => exact key _ h
  | cstring k cs => exact key _ h
  | int k v w s =>
    simp only [applyWriteOp, dict_write_int] at h
    by_cases hw : w = 1 ∨ w = 2 ∨ w = 4
    · rw [if_pos hw] at h; exact key _ h
    · rw [if_neg hw] at h; cases h

/-- A successful write sequence preserves the declared storage size and
keeps the cumulative written bytes within it. -/
theorem writeList_size_bound (ops : List WriteOp) (it it' : DictionaryIterator)
    (hinv : 1 + it.payload.length ≤ it.size)
    (h : writeList it ops = .ok it') :
    it'.size = it.size ∧ 1 + it'.payload.length ≤ it.size := by
  induction ops generalizing it with
  | nil =>
    simp only [writeList, Except.ok.injEq] at h
    rw [← h]
    exact ⟨rfl, hinv⟩
  | cons op ops ih =>
    simp only [writeList] at h
    cases hstep : applyWriteOp it op with
    | error e => rw [hstep] at h; cases h
    | ok itm =>
      rw [hstep] at h
      have hs := applyWriteOp_ok_size it itm op hstep
      have hrec := ih itm (by rw [hs.1]; exact hs.2) h
      exact ⟨hrec.1.trans hs.1, le_trans hrec.2 (le_of_eq hs.1)⟩

/-- Claim C4: write bounds safety and atomicity. First conjunct, per write
call on a valid argument: when the entry (7-byte header plus payload) fits
the remaining storage the call appends exactly the whole serialized entry,
and when the cumulative written size would exceed the declared size `S`
the call returns `DICT_NOT_ENOUGH_STORAGE` and produces no new state (no
partial entry). Second conjunct: any iterator reached by a successful write
session keeps the declared size and has written at most `S` bytes, so no
byte at or beyond offset `S` is ever written. -/
theorem dict_write_bounds :
    (∀ (it : DictionaryIterator) (op : WriteOp), op.valid →
      (1 + it.payload.length + (7 + op.tuple.value.length) ≤ it.size →
        applyWriteOp it op =
          .ok ⟨it.size, it.count + 1, it.payload ++ tupleBytes op.tuple⟩) ∧
      (it.size < 1 + it.payload.length + (7 + op.tuple.value.length) →
        applyWriteOp it op = .error .DICT_NOT_ENOUGH_STORAGE)) ∧
    (∀ (size : Nat) (ops : List WriteOp) (it : DictionaryIterator),
      writeAll size ops = .ok it → it.size = size ∧ dict_size it ≤ size) := by
  constructor
  · intro it op hv
    constructor
    · intro hfits
      cases op with
      | data k bs =>
        simp only [applyWriteOp, dict_write_data, appendTuple, WriteOp.tuple] at hfits ⊢
        rw [if_pos hfits]
      | cstring k cs =>
        simp only [applyWriteOp, dict_write_cstring, appendTuple, WriteOp.tuple] at hfits ⊢
        rw [if_pos hfits]
      | int k v w s =>
        simp only [applyWriteOp, dict_write_int, appendTuple, WriteOp.tuple] at hfits ⊢
        rw [if_pos hv.2, if_pos hfits]
    · intro hover
      cases op with
      | data k bs =>
        simp only [applyWriteOp, dict_write_data, appendTuple, WriteOp.tuple] at hover ⊢
        rw [if_neg (by omega)]
      | cstring k cs =>
        simp only [applyWriteOp, dict_write_cstring, appendTuple, WriteOp.tuple] at hover ⊢
        rw [if_neg (by omega)]
      | int k v w s =>
        simp only [applyWriteOp, dict_write_int, appendTuple, WriteOp.tuple] at hover ⊢
        rw [if_pos hv.2, if_neg (by omega)]
  · intro size ops it hw
    unfold writeAll at hw
    cases hbegin : dict_write_begin size with
    | error e => rw [hbegin] at hw; cases hw
    | ok it0 =>
      rw [hbegin] at hw
      have hs1 : ¬ size < 1 := by
        intro hlt
        unfold dict_write_begin at hbegin
        rw [if_pos hlt] at hbegin
        cases hbegin
      have hit0 : it0 = ⟨size, 0, []⟩ := by
        unfold dict_write_begin at hbegin
        rw [if_neg hs1] at hbegin
        exact ((Except.ok.injEq _ _).mp hbegin).symm
      subst hit0
      have hrec := writeList_size_bound ops ⟨size, 0, []⟩ it (by simpa using Nat.le_of_not_lt hs1) hw
      exact ⟨hrec.1, hrec.2⟩

/-- Witness for claim C4: in a 10-byte buffer, writing key 1 with the
2-byte array [2, 3] fits exactly and appends the whole entry; writing a
3-byte array instead would need 11 bytes and fails with
`DICT_NOT_ENOUGH_STORAGE`; the successful session writes exactly 10
bytes. -/
theorem dict_write_bounds_witness :
    applyWriteOp ⟨10, 0, []⟩ (.data 1 [2, 3]) =
        .ok ⟨10, 1, [] ++ tupleBytes (WriteOp.tuple (.data 1 [2, 3]))⟩ ∧
      applyWriteOp ⟨10, 0, []⟩ (.data 1 [1, 2, 3]) = .error .DICT_NOT_ENOUGH_STORAGE ∧
      (⟨10, 1, [1, 0, 0, 0, 0, 2, 0, 2, 3]⟩ : DictionaryIterator).size = 10 ∧
      dict_size ⟨10, 1, [1, 0, 0, 0, 0, 2, 0, 2, 3]⟩ ≤ 10 :=
  ⟨(dict_write_bounds.1 ⟨10, 0, []⟩ (.data 1 [2, 3]) (by decide)).1 (by decide),
   (dict_write_bounds.1 ⟨10, 0, []⟩ (.data 1 [1, 2, 3]) (by decide)).2 (by decide),
   dict_write_bounds.2 10 [.data 1 [2, 3]] ⟨10, 1, [1, 0, 0, 0, 0, 2, 0, 2, 3]⟩ (by rfl)⟩

/-! ## Claim C9: find correctness -/

/-- Claim C9: for every dictionary (entry sequence of any length, duplicate
keys allowed) and key, `dict_find` returns `none` exactly when no entry has
that key, and any returned entry has the searched key and is the first
match in insertion order: it sits at an index before which no entry's key
matches. -/
theorem dict_find_first (ts : List Tuple) (k : Nat) :
    (dict_find ts k = none ↔ ∀ t ∈ ts, t.key ≠ k) ∧
    (∀ t : Tuple, dict_find ts k = some t →
      t.key = k ∧ ∃ i, ∃ h : i < ts.length, ts.get ⟨i, h⟩ = t ∧
        ∀ j, ∀ hj : j < ts.length, j < i → (ts.get ⟨j, hj⟩).key ≠ k) := by
  induction ts with
  | nil =>
    constructor
    · simp [dict_find]
    · intro t h; cases h
  | cons a ts ih =>
    by_cases ha : a.key = k
    · constructor
      · constructor
        · intro h
          simp only [dict_find, if_pos ha] at h
          cases h
        · intro h
          exact absurd ha (h a (List.mem_cons_self _ _))
      · intro t h
        simp only [dict_find, if_pos ha] at h
        have hat : a = t := Option.some.inj h
        subst hat
        refine ⟨ha, 0, by simp, rfl, ?_⟩
        intro j hj hj0
        exact absurd hj0 (Nat.not_lt_zero j)
    · constructor
      · simp only [dict_find, if_neg ha]
        rw [ih.1]
        constructor
        · intro h t ht
          rcases List.mem_cons.mp ht with rfl | ht'
          · exact ha
          · exact h t ht'
        · intro h t ht
          exact h t (List.mem_cons_of_mem _ ht)
      · intro t h
        simp only [dict_find, if_neg ha] at h
        obtain ⟨hk, i, hi, hget, hfirst⟩ := ih.2 t h
        refine ⟨hk, i + 1, Nat.succ_lt_succ hi, ?_, ?_⟩
        · rw [List.get_cons_succ]
          exact hget
        · intro j hj hji
          cases j with
          | zero => exact ha
          | succ j' =>
            rw [List.get_cons_succ]
            exact hfirst j' (Nat.lt_of_succ_lt_succ hj) (Nat.lt_of_succ_lt_succ hji)

/-- Witness for claim C9 on a dictionary with the duplicated key 2:
`dict_find` returns the first matching entry, at index 1, with no earlier
match. -/
theorem dict_find_first_witness :
    (⟨2, 0, [6]⟩ : Tuple).key = 2 ∧
      ∃ i, ∃ h : i < ([⟨1, 0, [5]⟩, ⟨2, 0, [6]⟩, ⟨2, 0, [7]⟩] : List Tuple).length,
        ([⟨1, 0, [5]⟩, ⟨2, 0, [6]⟩, ⟨2, 0, [7]⟩] : List Tuple).get ⟨i, h⟩ = ⟨2, 0, [6]⟩ ∧
          ∀ j, ∀ hj : j < ([⟨1, 0, [5]⟩, ⟨2, 0, [6]⟩, ⟨2, 0, [7]⟩] : List Tuple).length,
            j < i →
            (([⟨1, 0, [5]⟩, ⟨2, 0, [6]⟩, ⟨2, 0, [7]⟩] : List Tuple).get ⟨j, hj⟩).key ≠ 2 :=
  (dict_find_first [⟨1, 0, [5]⟩, ⟨2, 0, [6]⟩, ⟨2, 0, [7]⟩] 2).2 ⟨2, 0, [6]⟩ (by decide)

/-! ## Merge lemmas -/

theorem hasKey_iff (ts : List Tuple) (k : Nat) :
    hasKey ts k = true ↔ ∃ t ∈ ts, t.key = k := by
  simp [hasKey, List.any_eq_true]

theorem lastWithKey_key (ts : List Tuple) (k : Nat) (u : Tuple)
    (h : lastWithKey ts k = some u) : u.key = k := by
  induction ts with
  | nil => cases h
  | cons a ts ih =>
    simp only [lastWithKey] at h
    cases hl : lastWithKey ts k with
    | some w =>
      rw [hl] at h
      have hw : w = u := Option.some.inj h
      subst hw
      exact ih hl
    | none =>
      rw [hl] at h
      by_cases ha : a.key = k
      · rw [if_pos ha] at h
        have : a = u := Option.some.inj h
        subst this
        exact ha
      · rw [if_neg ha] at h; cases h

theorem lastWithKey_isSome (ts : List Tuple) (s : Tuple) (hs : s ∈ ts) :
    ∃ u, lastWithKey ts s.key = some u := by
  induction ts with
  | nil => cases hs
  | cons a ts ih =>
    simp only [lastWithKey]
    cases hl : lastWithKey ts s.key with
    | some w => exact ⟨w, rfl⟩
    | none =>
      rcases List.mem_cons.mp hs with rfl | hs'
      · rw [if_pos rfl]
        exact ⟨s, rfl⟩
      · obtain ⟨u, hu⟩ := ih hs'
        rw [hu] at hl
        cases hl

theorem lastWithKey_eq_none (ts : List Tuple) (k : Nat)
    (h : ∀ t ∈ ts, t.key ≠ k) : lastWithKey ts k = none := by
  induction ts with
  | nil => rfl
  | cons a ts ih =>
    simp only [lastWithKey]
    rw [ih (fun t ht => h t (List.mem_cons_of_mem _ ht))]
    rw [if_neg (h a (List.mem_cons_self _ _))]

theorem lastWithKey_nodup (ts : List Tuple) (d : Tuple) (hd : d ∈ ts)
    (hnd : (ts.map Tuple.key).Nodup) : lastWithKey ts d.key = some d := by
  induction ts with
  | nil => cases hd
  | cons a ts ih =>
    simp only [List.map_cons, List.nodup_cons] at hnd
    rcases List.mem_cons.mp hd with rfl | hd'
    · have hnone : lastWithKey ts d.key = none := by
        apply lastWithKey_eq_none
        intro t ht hkey
        exact hnd.1 (hkey ▸ List.mem_map_of_mem Tuple.key ht)
      simp [lastWithKey, hnone]
    · have := ih hd' hnd.2
      simp only [lastWithKey, this]

theorem updateEntry_key (src : List Tuple) (d : Tuple) :
    (updateEntry src d).key = d.key := by
  unfold updateEntry
  cases lastWithKey src d.key <;> rfl

/-- When the source holds the entry's key, the updated entry carries the
type and value of the last source occurrence. -/
theorem updateEntry_last (src : List Tuple) (x u : Tuple)
    (h : lastWithKey src (updateEntry src x).key = some u) :
    (updateEntry src x).type = u.type ∧ (updateEntry src x).value = u.value := by
  rw [updateEntry_key] at h
  unfold updateEntry
  cases hl : lastWithKey src x.key with
  | some w =>
    rw [hl] at h
    have : w = u := Option.some.inj h
    subst this
    exact ⟨rfl, rfl⟩
  | none => rw [hl] at h; cases h

theorem dedupKeysGo_subset (seen : List Nat) (ts : List Tuple) :
    ∀ s ∈ dedupKeysGo seen ts, s ∈ ts := by
  induction ts generalizing seen with
  | nil => intro s hs; cases hs
  | cons t ts ih =>
    intro s hs
    simp only [dedupKeysGo] at hs
    by_cases ht : t.key ∈ seen
    · rw [if_pos ht] at hs
      exact List.mem_cons_of_mem _ (ih seen s hs)
    · rw [if_neg ht] at hs
      rcases List.mem_cons.mp hs with rfl | hs'
      · exact List.mem_cons_self _ _
      · exact List.mem_cons_of_mem _ (ih (t.key :: seen) s hs')

theorem dedupKeysGo_keys (ts : List Tuple) :
    ∀ (seen : List Nat) (k : Nat), k ∉ seen → (∃ s ∈ ts, s.key = k) →
      ∃ x ∈ dedupKeysGo seen ts, x.key = k := by
  induction ts with
  | nil =>
    intro seen k _ hex
    obtain ⟨s, hs, _⟩ := hex
    cases hs
  | cons t ts ih =>
    intro seen k hk hex
    simp only [dedupKeysGo]
    by_cases ht : t.key ∈ seen
    · rw [if_pos ht]
      apply ih seen k hk
      obtain ⟨s, hs, hsk⟩ := hex
      rcases List.mem_cons.mp hs with rfl | hs'
      · exact absurd (hsk ▸ ht) hk
      · exact ⟨s, hs', hsk⟩
    · rw [if_neg ht]
      by_cases hkt : t.key = k
      · exact ⟨t, List.mem_cons_self _ _, hkt⟩
      · obtain ⟨s, hs, hsk⟩ := hex
        rcases List.mem_cons.mp hs with rfl | hs'
        · exact absurd hsk hkt
        · obtain ⟨x, hx, hxk⟩ := ih (t.key :: seen) k
            (by
              intro hmem
              rcases List.mem_cons.mp hmem with h1 | h2
              · exact hkt h1.symm
              · exact hk h2)
            ⟨s, hs', hsk⟩
          exact ⟨x, List.mem_cons_of_mem _ hx, hxk⟩

/-- Every entry of the merged destination is an updated entry. -/
theorem mergeEntries_mem (dest src : List Tuple) (b : Bool) (t : Tuple)
    (ht : t ∈ mergeEntries dest src b) : ∃ x, t = updateEntry src x := by
  unfold mergeEntries at ht
  rcases List.mem_append.mp ht with h | h
  · obtain ⟨x, _, hx⟩ := List.mem_map.mp h
    exact ⟨x, hx.symm⟩
  · cases b with
    | true => simp at h
    | false =>
      simp only [Bool.false_eq_true, if_neg] at h
      obtain ⟨x, _, hx⟩ := List.mem_map.mp h
      exact ⟨x, hx.symm⟩

/-! ## Claim C6: merge result semantics -/

/-- Claim C6: merge result semantics. First conjunct (general,
`update_existing_keys_only = false`): every source entry's key is present
in the merged destination, carrying the type and value of the key's last
source occurrence. Second conjunct (general, `update_existing_keys_only =
true`): the merged destination has exactly the destination's keys, in
order — source entries with fresh keys are dropped. Third and fourth
conjuncts: the spec's concrete example, dest `{1:"a", 2:"b"}` merged with
source `{2:"c", 3:"d"}` yields `{1:"a", 2:"c", 3:"d"}` (callbacks for key 2
with old "b" and key 3 with the NULL-tuple sentinel) when false, and
`{1:"a", 2:"c"}` (one callback) when true. -/
theorem dict_merge_semantics :
    (∀ (dest src : List Tuple) (destMax : Nat) (merged : List Tuple) (sz : Nat)
        (cbs : List KeyUpdate),
      dict_merge dest destMax src false = .ok (merged, sz, cbs) →
      ∀ s ∈ src, ∃ t ∈ merged, ∃ u, lastWithKey src s.key = some u ∧
        t.key = s.key ∧ t.type = u.type ∧ t.value = u.value) ∧
    (∀ (dest src : List Tuple) (destMax : Nat) (merged : List Tuple) (sz : Nat)
        (cbs : List KeyUpdate),
      dict_merge dest destMax src true = .ok (merged, sz, cbs) →
      merged.map Tuple.key = dest.map Tuple.key) ∧
    dict_merge destEx 100 srcEx false =
      .ok ([⟨1, TUPLE_CSTRING, [97, 0]⟩, ⟨2, TUPLE_CSTRING, [99, 0]⟩,
            ⟨3, TUPLE_CSTRING, [100, 0]⟩],
           28,
           [⟨2, ⟨2, TUPLE_CSTRING, [99, 0]⟩, some ⟨2, TUPLE_CSTRING, [98, 0]⟩⟩,
            ⟨3, ⟨3, TUPLE_CSTRING, [100, 0]⟩, none⟩]) ∧
    dict_merge destEx 100 srcEx true =
      .ok ([⟨1, TUPLE_CSTRING, [97, 0]⟩, ⟨2, TUPLE_CSTRING, [99, 0]⟩],
           19,
           [⟨2, ⟨2, TUPLE_CSTRING, [99, 0]⟩, some ⟨2, TUPLE_CSTRING, [98, 0]⟩⟩]) := by
  have hmerged : ∀ (dest src : List Tuple) (destMax : Nat) (merged : List Tuple)
      (sz : Nat) (cbs : List KeyUpdate) (b : Bool),
      dict_merge dest destMax src b = .ok (merged, sz, cbs) →
      merged = mergeEntries dest src b := by
    intro dest src destMax merged sz cbs b h
    unfold dict_merge at h
    by_cases hc : 1 + entriesSize (mergeEntries dest src b) ≤ destMax
    · rw [if_pos hc] at h
      have := (Except.ok.injEq _ _).mp h
      exact ((Prod.ext_iff.mp this).1).symm
    · rw [if_neg hc] at h; cases h
  refine ⟨?_, ?_, by rfl, by rfl⟩
  · intro dest src destMax merged sz cbs h s hs
    have hm := hmerged dest src destMax merged sz cbs false h
    subst hm
    obtain ⟨u, hu⟩ := lastWithKey_isSome src s hs
    by_cases hd : hasKey dest s.key = true
    · obtain ⟨d, hdm, hdk⟩ := (hasKey_iff dest s.key).mp hd
      refine ⟨updateEntry src d, ?_, u, hu, ?_, ?_⟩
      · unfold mergeEntries
        exact List.mem_append_left _ (List.mem_map_of_mem _ hdm)
      · rw [updateEntry_key, hdk]
      · apply updateEntry_last
        rw [updateEntry_key, hdk]
        exact hu
    · obtain ⟨x, hx, hxk⟩ := dedupKeysGo_keys src [] s.key (by simp)
        ⟨s, hs, rfl⟩
      refine ⟨updateEntry src x, ?_, u, hu, ?_, ?_⟩
      · unfold mergeEntries
        apply List.mem_append_right
        simp only [Bool.false_eq_true, if_neg]
        apply List.mem_map_of_mem
        apply List.mem_filter.mpr
        refine ⟨hx, ?_⟩
        rw [hxk]
        simp [hd]
      · rw [updateEntry_key, hxk]
      · apply updateEntry_last
        rw [updateEntry_key, hxk]
        exact hu
  · intro dest src destMax merged sz cbs h
    have hm := hmerged dest src destMax merged sz cbs true h
    subst hm
    unfold mergeEntries
    simp only [if_pos, List.append_nil, List.map_map]
    apply List.map_congr_left
    intro d _
    exact updateEntry_key src d

/-- Witness for claim C6: applying the general false-mode conjunct to the
spec's example shows source entry `{3: "d"}` present in the merged
destination with its (single) last occurrence's value. -/
theorem dict_merge_semantics_witness :
    ∃ t ∈ [(⟨1, TUPLE_CSTRING, [97, 0]⟩ : Tuple), ⟨2, TUPLE_CSTRING, [99, 0]⟩,
           ⟨3, TUPLE_CSTRING, [100, 0]⟩],
      ∃ u, lastWithKey srcEx (⟨3, TUPLE_CSTRING, [100, 0]⟩ : Tuple).key = some u ∧
        t.key = (⟨3, TUPLE_CSTRING, [100, 0]⟩ : Tuple).key ∧
        t.type = u.type ∧ t.value = u.value :=
  dict_merge_semantics.1 destEx srcEx 100
    [⟨1, TUPLE_CSTRING, [97, 0]⟩, ⟨2, TUPLE_CSTRING, [99, 0]⟩,
     ⟨3, TUPLE_CSTRING, [100, 0]⟩]
    28
    [⟨2, ⟨2, TUPLE_CSTRING, [99, 0]⟩, some ⟨2, TUPLE_CSTRING, [98, 0]⟩⟩,
     ⟨3, ⟨3, TUPLE_CSTRING, [100, 0]⟩, none⟩]
    (by rfl)
    ⟨3, TUPLE_CSTRING, [100, 0]⟩ (by decide)

/-! ## Claim C7: merge callbacks with duplicate source keys -/

/-- Claim C7: when the source dictionary holds some key more than once,
`dict_merge` (here in append mode) fires the key-updated callback once per
source entry occurrence, in source iteration order — the callback list is
exactly the source mapped in order — while every merged entry whose key
occurs in the source carries the type and value of that key's last source
occurrence: only the last occurrence's value persists. -/
theorem dict_merge_callbacks (dest src : List Tuple) (destMax : Nat)
    (merged : List Tuple) (sz : Nat) (cbs : List KeyUpdate)
    (hdup : ¬ (src.map Tuple.key).Nodup)
    (h : dict_merge dest destMax src false = .ok (merged, sz, cbs)) :
    cbs = src.map (fun s => ⟨s.key, s, dict_find dest s.key⟩) ∧
      ∀ t ∈ merged, ∀ u, lastWithKey src t.key = some u →
        t.type = u.type ∧ t.value = u.value := by
  unfold dict_merge at h
  by_cases hc : 1 + entriesSize (mergeEntries dest src false) ≤ destMax
  · rw [if_pos hc] at h
    have hinj := (Except.ok.injEq _ _).mp h
    have hm : mergeEntries dest src false = merged := (Prod.ext_iff.mp hinj).1
    have hcbs : mergeCallbacks dest src false = cbs :=
      (Prod.ext_iff.mp (Prod.ext_iff.mp hinj).2).2
    constructor
    · rw [← hcbs]
      unfold mergeCallbacks
      simp
    · intro t ht u hu
      obtain ⟨x, hx⟩ := mergeEntries_mem dest src false t (hm ▸ ht)
      subst hx
      exact updateEntry_last src x u hu
  · rw [if_neg hc] at h; cases h

/-- Witness for claim C7: source `[⟨1, [5]⟩, ⟨1, [6]⟩]` holds key 1 twice;
merging into `[⟨1, [4]⟩]` fires two callbacks in source order and the
merged entry carries the last occurrence's value `[6]`. -/
theorem dict_merge_callbacks_witness :
    ([⟨1, ⟨1, TUPLE_BYTE_ARRAY, [5]⟩, some ⟨1, TUPLE_BYTE_ARRAY, [4]⟩⟩,
      ⟨1, ⟨1, TUPLE_BYTE_ARRAY, [6]⟩, some ⟨1, TUPLE_BYTE_ARRAY, [4]⟩⟩] : List KeyUpdate) =
      ([⟨1, TUPLE_BYTE_ARRAY, [5]⟩, ⟨1, TUPLE_BYTE_ARRAY, [6]⟩] : List Tuple).map
        (fun s => ⟨s.key, s, dict_find [⟨1, TUPLE_BYTE_ARRAY, [4]⟩] s.key⟩) ∧
      ∀ t ∈ [(⟨1, TUPLE_BYTE_ARRAY, [6]⟩ : Tuple)],
        ∀ u, lastWithKey [⟨1, TUPLE_BYTE_ARRAY, [5]⟩, ⟨1, TUPLE_BYTE_ARRAY, [6]⟩] t.key =
            some u →
          t.type = u.type ∧ t.value = u.value :=
  dict_merge_callbacks [⟨1, TUPLE_BYTE_ARRAY, [4]⟩]
    [⟨1, TUPLE_BYTE_ARRAY, [5]⟩, ⟨1, TUPLE_BYTE_ARRAY, [6]⟩] 50
    [⟨1, TUPLE_BYTE_ARRAY, [6]⟩] 9
    [⟨1, ⟨1, TUPLE_BYTE_ARRAY, [5]⟩, some ⟨1, TUPLE_BYTE_ARRAY, [4]⟩⟩,
     ⟨1, ⟨1, TUPLE_BYTE_ARRAY, [6]⟩, some ⟨1, TUPLE_BYTE_ARRAY, [4]⟩⟩]
    (by decide) (by rfl)

/-! ## Claim C8: merge idempotence -/

/-- Claim C8 (amended: the dictionary's keys are pairwise distinct):
merging a dictionary into an identical copy of itself in append mode, with
enough destination capacity, succeeds and leaves the destination exactly
equal to the original entry sequence (same keys, values and order); hence
applying the very same merge a second time — the destination being again
`D` and the source `D` — produces the same final destination as applying
it once. -/
theorem dict_merge_idem (D : List Tuple) (destMax : Nat)
    (hkeys : (D.map Tuple.key).Nodup)
    (hfit : 1 + entriesSize D ≤ destMax) :
    dict_merge D destMax D false = .ok (D, 1 + entriesSize D, mergeCallbacks D D false) := by
  have hme : mergeEntries D D false = D := by
    unfold mergeEntries
    have h1 : D.map (updateEntry D) = D := by
      have hid : ∀ d ∈ D, updateEntry D d = d := by
        intro d hd
        unfold updateEntry
        rw [lastWithKey_nodup D d hd hkeys]
      calc D.map (updateEntry D) = D.map id := List.map_congr_left hid
        _ = D := List.map_id D
    have h2 : (dedupByKey D).filter (fun s => !hasKey D s.key) = [] := by
      rw [List.filter_eq_nil_iff]
      intro s hs
      have hsD : s ∈ D := dedupKeysGo_subset [] D s hs
      have hk : hasKey D s.key = true := (hasKey_iff D s.key).mpr ⟨s, hsD, rfl⟩
      simp [hk]
    simp [h1, h2]
  unfold dict_merge
  rw [hme, if_pos hfit]

/-- Witness for claim C8 at the two-entry distinct-key dictionary
`[⟨1, [9]⟩, ⟨2, [8]⟩]` with capacity 50. -/
theorem dict_merge_idem_witness :
    dict_merge [⟨1, TUPLE_BYTE_ARRAY, [9]⟩, ⟨2, TUPLE_BYTE_ARRAY, [8]⟩] 50
        [⟨1, TUPLE_BYTE_ARRAY, [9]⟩, ⟨2, TUPLE_BYTE_ARRAY, [8]⟩] false =
      .ok ([⟨1, TUPLE_BYTE_ARRAY, [9]⟩, ⟨2, TUPLE_BYTE_ARRAY, [8]⟩],
           1 + entriesSize [⟨1, TUPLE_BYTE_ARRAY, [9]⟩, ⟨2, TUPLE_BYTE_ARRAY, [8]⟩],
           mergeCallbacks [⟨1, TUPLE_BYTE_ARRAY, [9]⟩, ⟨2, TUPLE_BYTE_ARRAY, [8]⟩]
             [⟨1, TUPLE_BYTE_ARRAY, [9]⟩, ⟨2, TUPLE_BYTE_ARRAY, [8]⟩] false) :=
  dict_merge_idem [⟨1, TUPLE_BYTE_ARRAY, [9]⟩, ⟨2, TUPLE_BYTE_ARRAY, [8]⟩] 50
    (by decide) (by decide)

/-- Counterexample to claim C8 as stated (for every dictionary `D`): for
the duplicate-key dictionary `dupD = [⟨1, [0]⟩, ⟨1, [1]⟩]`, merging it
into an identical copy of itself succeeds but yields
`[⟨1, [1]⟩, ⟨1, [1]⟩]`, not `dupD` — the first occurrence's value is
overwritten by the last, so the destination is not a re-serialization of
the source. -/
theorem dict_merge_idem_cex :
    mergeResultEntries (dict_merge dupD 50 dupD false) =
        some [⟨1, TUPLE_BYTE_ARRAY, [1]⟩, ⟨1, TUPLE_BYTE_ARRAY, [1]⟩] ∧
      ([⟨1, TUPLE_BYTE_ARRAY, [1]⟩, ⟨1, TUPLE_BYTE_ARRAY, [1]⟩] : List Tuple) ≠ dupD := by
  decide

/-! ## Claim C10: TupletCString totality -/

/-- Claim C10: the `TupletCString` constructor is total in its string
argument. For a NULL pointer (`none`) it produces a `TUPLE_CSTRING` Tuplet
of length 0 — the C conditional short-circuits, so `strlen` is never
applied to NULL, which the model's `none` branch mirrors. For a non-NULL
string it produces length `strlen s + 1`; on a NUL-free character buffer
`strlen` is the full character count, so the length is the byte length
including the terminating zero. -/
theorem TupletCString_total : ∀ (key : Nat) (s : List Nat),
    TupletCString key none = ⟨TUPLE_CSTRING, key, .cstring none 0⟩ ∧
      TupletCString key (some s) =
        ⟨TUPLE_CSTRING, key, .cstring (some s) (strlen s + 1)⟩ ∧
      (0 ∉ s → strlen s = s.length) := by
  intro key s
  refine ⟨rfl, rfl, ?_⟩
  intro h0
  induction s with
  | nil => rfl
  | cons b bs ih =>
    simp only [List.mem_cons, not_or] at h0
    have hb : (b != 0) = true := by
      simp only [bne_iff_ne, ne_eq]
      intro hbe
      exact h0.1 hbe.symm
    have hrec := ih (by
      intro hmem
      exact h0.2 hmem)
    simp only [strlen, List.takeWhile_cons, hb, if_true, List.length_cons] at hrec ⊢
    omega

/-- Witness for claim C10: the NUL-free two-character string "hi" has
`strlen` 2, so its Tuplet length is the 3 bytes including the
terminator. -/
theorem TupletCString_total_witness : strlen [104, 105] = 2 :=
  (TupletCString_total 7 [104, 105]).2.2 (by decide)

end PebbleDict
